import Mathlib

/-!
Verification development for the LINE sticker toolkit.

The embedding models, faithfully to the sources:
* `line_stamp_maker/convert-webp-to-png.js` — the Node.js WebP→PNG batch
  converter (file enumeration, extension filter, per-file try/catch with
  success/error counters, output naming) together with the PowerShell
  variant bundled in the same file (which writes into a `png_output`
  subdirectory);
* the Canva upload AutoHotkey script (the `!1` and `!2` hotkey handlers);
* `main.pyw` — the GUI launcher's try/except exit behaviour;
* the prompt-submission automation loop's bookkeeping, modelled from the
  spec because the `chatgpt_prefix` package itself is not part of the
  sources here.

File names are modelled as `List Char`; directories as finite sets of
names (`Finset (List Char)`).  The image library call (`sharp(...).png()
.toFile(...)`) is abstracted as a success/failure oracle `ok : FileName →
Bool`, which is all the control flow of the script depends on.
-/

namespace LineStamp

/-! ### Filename helpers (Node `path` semantics) -/

/-- A plain file name (no directory separators), one character per entry. -/
abbrev FileName := List Char

/-- `String.prototype.toLowerCase` on a character list (ASCII, as `Char.toLower`). -/
def lowerList (s : List Char) : List Char := s.map Char.toLower

/-- The suffix of `s` that starts at the last `'.'` of `s`, if `s` has a dot. -/
def extTail : List Char → Option (List Char)
  | [] => none
  | c :: cs =>
    match extTail cs with
    | some e => some e
    | none => if c = '.' then some (c :: cs) else none

/-- Node `path.extname` restricted to plain file names: the suffix from the
last `'.'`, except that a dot in leading position (a hidden file such as
`.webp`) yields no extension. -/
def extname : FileName → List Char
  | [] => []
  | _ :: cs => (extTail cs).getD []

/-- The literal lowercase extension `".webp"`. -/
def webpExt : List Char := ['.', 'w', 'e', 'b', 'p']

/-- The literal extension `".png"`. -/
def pngExt : List Char := ['.', 'p', 'n', 'g']

/-- The filter of `convert-webp-to-png.js`:
`path.extname(file).toLowerCase() === '.webp'`. -/
def isWebpFile (f : FileName) : Bool := lowerList (extname f) == webpExt

/-- `const webpFiles = files.filter(file => path.extname(file).toLowerCase() === '.webp')`. -/
def webpFiles (files : List FileName) : List FileName := files.filter isWebpFile

/-- Node `path.basename(file, suffix)` restricted to plain names: the suffix is
stripped when the name ends with it, unless the whole name equals the suffix. -/
def basenameStrip (f sfx : List Char) : List Char :=
  if sfx.isSuffixOf f && !(f == sfx) then f.take (f.length - sfx.length) else f

/-- The converter's output name: `path.basename(file, '.webp') + '.png'`. -/
def outputName (f : FileName) : FileName := basenameStrip f webpExt ++ pngExt

/-- The name of a file minus its (Node-style) extension — the "base name" in
the sense of the specification. -/
def baseName (f : FileName) : FileName := f.take (f.length - (extname f).length)

/-! ### The conversion batch loop of `convert-webp-to-png.js` -/

/-- The mutable state of the `for (const file of webpFiles)` loop:
the two counters, the outputs written so far (`sharp(...).toFile(outputPath)`
calls that succeeded), the failures logged by `console.error`, and the files
iterated over. -/
structure RunState where
  successCount : Nat
  errorCount : Nat
  outputs : List FileName
  failures : List FileName
  processed : List FileName
deriving DecidableEq

/-- Counters start at `0`, nothing processed. -/
def initState : RunState := ⟨0, 0, [], [], []⟩

/-- One iteration of the loop body: `try { await sharp(...).toFile(...);
successCount++ } catch { errorCount++ }`.  The transcode outcome is the
oracle `ok`. -/
def processFile (ok : FileName → Bool) (st : RunState) (f : FileName) : RunState :=
  if ok f then
    { st with successCount := st.successCount + 1,
              outputs := st.outputs ++ [outputName f],
              processed := st.processed ++ [f] }
  else
    { st with errorCount := st.errorCount + 1,
              failures := st.failures ++ [f],
              processed := st.processed ++ [f] }

/-- The result of one run of `convertWebpToPng`: the final loop state and the
final summary line (`処理完了: 成功 n件, 失敗 m件`), which is only printed when
at least one WebP file was found (the script returns early otherwise). -/
structure RunResult where
  state : RunState
  summary : Option (Nat × Nat)
deriving DecidableEq

/-- The whole `convertWebpToPng` function: enumerate, filter, early-return on
an empty match list, otherwise run the loop over every matched file and end
with the summary of both counters. -/
def convertWebpToPng (ok : FileName → Bool) (files : List FileName) : RunResult :=
  let ws := webpFiles files
  if ws.isEmpty then ⟨initState, none⟩
  else
    let st := ws.foldl (processFile ok) initState
    ⟨st, some (st.successCount, st.errorCount)⟩

/-! ### Directory-level effect of a run -/

/-- The directory contents after one run, as a set of names: `toFile` creates
or overwrites the output of every successfully transcoded matched file and
nothing is ever deleted. -/
def dirAfterRun (ok : FileName → Bool) (fs : Finset FileName) : Finset FileName :=
  fs ∪ (fs.filter (fun f => isWebpFile f = true ∧ ok f = true)).image outputName

/-! ### Paths: sibling outputs (Node) vs `png_output` (PowerShell variant) -/

/-- A path split into the directory part and the file name. -/
structure RelPath where
  dir : List Char
  name : List Char
deriving DecidableEq

/-- `Join-Path` / `path.join` with a single separator. -/
def joinPath (d n : List Char) : List Char := d ++ '\\' :: n

/-- `const inputPath = path.join(currentDir, file)`. -/
def nodeInputPath (dir : List Char) (f : FileName) : RelPath := ⟨dir, f⟩

/-- `const outputPath = path.join(currentDir, path.basename(file, '.webp') + '.png')`. -/
def nodeOutputPath (dir : List Char) (f : FileName) : RelPath := ⟨dir, outputName f⟩

/-- The PowerShell variant's output folder name: `$outputDir = Join-Path $scriptDir "png_output"`. -/
def psOutputDirName : List Char := ['p', 'n', 'g', '_', 'o', 'u', 't', 'p', 'u', 't']

/-- .NET `Path.GetExtension` style extension: the suffix from the last dot,
with no special case for a leading dot. -/
def dotnetExt (f : FileName) : List Char := (extTail f).getD []

/-- .NET `Path.GetFileNameWithoutExtension` on a plain name. -/
def dotnetStripExt (f : FileName) : FileName := f.take (f.length - (dotnetExt f).length)

/-- The PowerShell variant's output path:
`Join-Path $outputDir ([System.IO.Path]::GetFileNameWithoutExtension($inputPath) + ".png")`. -/
def psOutputPath (dir : List Char) (f : FileName) : RelPath :=
  ⟨joinPath dir psOutputDirName, dotnetStripExt f ++ pngExt⟩

/-! ### The prompt-submission automation loop (bookkeeping) -/

/-- One row of the prompt source file: prompt text with optional prefix and
suffix columns. -/
structure PromptRecord where
  text : List Char
  pre : List Char
  suf : List Char
deriving DecidableEq

/-- The bookkeeping state of the dispatch loop: the records still present in
the source file and the records dispatched so far. -/
structure PromptLoopState where
  remaining : List PromptRecord
  dispatched : List PromptRecord
deriving DecidableEq

/-- Modelled from the spec: one dispatch-loop iteration of the prompt-submission
automation.  The `chatgpt_prefix` package itself is not among the sources
(only `AutoPrompter/launch-chatgpt-prefix.bat` and its README are), so this
follows the spec's words: on success, remove the dispatched record from the
persisted prompt list unless running in simulation (dry-run) mode, which
performs every step except the destructive removal; a record whose dispatch
failed permanently is kept and the loop continues with the next record. -/
def promptStep (dryRun : Bool) (ok : PromptRecord → Bool) (st : PromptLoopState)
    (r : PromptRecord) : PromptLoopState :=
  if ok r then
    { remaining := st.remaining ++ (if dryRun then [r] else []),
      dispatched := st.dispatched ++ [r] }
  else
    { remaining := st.remaining ++ [r], dispatched := st.dispatched }

/-- Modelled from the spec: a full run of the automation loop over the prompt
source file, in file order.  The `remaining` component of the result is the
content of the source file after the run. -/
def runPromptLoop (dryRun : Bool) (ok : PromptRecord → Bool)
    (records : List PromptRecord) : PromptLoopState :=
  records.foldl (promptStep dryRun ok) ⟨[], []⟩

/-! ### The Canva upload AutoHotkey script -/

/-- A keypress sent by the AutoHotkey script. -/
inductive Key where
  | down
  | space
  | tab
  | enter
deriving DecidableEq

/-- One loop iteration of either hotkey handler: `Send {Down}`, `Send {Space}`,
`CurrentTab` times `Send {Tab}`, then `Send {Enter}`. -/
def iterationKeys (currentTab : Nat) : List Key :=
  [Key.down, Key.space] ++ List.replicate currentTab Key.tab ++ [Key.enter]

/-- The number of Tab keypresses in an iteration. -/
def tabsSent (it : List Key) : Nat := it.count Key.tab

/-- The `!1` handler: `Loop, 19` with `CurrentTab := A_Index + 1` (`A_Index`
is 1-based, so iteration `i` of `List.range 19` uses `(i + 1) + 1` tabs). -/
def alt1Handler : List (List Key) :=
  (List.range 19).map (fun i => iterationKeys (i + 1 + 1))

/-- The `!2` handler: `Loop, 20` with `CurrentTab := A_Index + 20`. -/
def alt2Handler : List (List Key) :=
  (List.range 20).map (fun i => iterationKeys (i + 1 + 20))

/-! ### The GUI launcher `main.pyw` -/

/-- The `main()` of `main.pyw`: `try: app = ModernStampMakerGUI(); app.run()
except Exception as e: print(...); sys.exit(1)`, and an implicit exit status 0
on normal return.  Construction and run of the GUI are abstract computations
that either return or raise; the result is the pair of the process exit status
and the reported error, if any. -/
def mainEntry {α : Type} (construct : Except (List Char) α)
    (run : α → Except (List Char) Unit) : Nat × Option (List Char) :=
  match construct with
  | Except.error e => (1, some e)
  | Except.ok app =>
    match run app with
    | Except.error e => (1, some e)
    | Except.ok _ => (0, none)

/-! ### Helper lemmas about `extTail` and `extname` -/

theorem extTail_eq_none_iff (s : List Char) : extTail s = none ↔ '.' ∉ s := by
  induction s with
  | nil => simp [extTail]
  | cons c cs ih =>
    cases hct : extTail cs with
    | some e =>
      simp only [extTail, hct]
      have hmem : '.' ∈ cs := by
        by_contra hn
        rw [ih.mpr hn] at hct
        exact Option.noConfusion hct
      constructor
      · intro h; exact Option.noConfusion h
      · intro h; exact absurd (List.mem_cons_of_mem c hmem) h
    | none =>
      simp only [extTail, hct]
      by_cases hc : c = '.'
      · subst hc
        simp
      · simp only [if_neg hc]
        constructor
        · intro _
          simp only [List.mem_cons, not_or]
          exact ⟨fun hh => hc hh.symm, ih.mp hct⟩
        · intro _; trivial

theorem extTail_suffix {s e : List Char} (h : extTail s = some e) : e <:+ s := by
  induction s with
  | nil => exact Option.noConfusion h
  | cons c cs ih =>
    cases hct : extTail cs with
    | some e' =>
      rw [extTail, hct] at h
      obtain rfl : e' = e := Option.some.injEq _ _ ▸ h.symm ▸ rfl
      exact (ih hct).trans (List.suffix_cons c cs)
    | none =>
      rw [extTail, hct] at h
      by_cases hc : c = '.'
      · rw [if_pos hc] at h
        obtain rfl : c :: cs = e := by injection h
        exact List.suffix_refl _
      · rw [if_neg hc] at h
        exact Option.noConfusion h

theorem extTail_head {s e : List Char} (h : extTail s = some e) : ∃ t, e = '.' :: t := by
  induction s with
  | nil => exact Option.noConfusion h
  | cons c cs ih =>
    cases hct : extTail cs with
    | some e' =>
      rw [extTail, hct] at h
      obtain rfl : e' = e := by injection h
      exact ih hct
    | none =>
      rw [extTail, hct] at h
      by_cases hc : c = '.'
      · rw [if_pos hc] at h
        exact ⟨cs, by injection h with h'; rw [← h', hc]⟩
      · rw [if_neg hc] at h
        exact Option.noConfusion h

theorem extTail_append_dot {zs : List Char} (xs : List Char) (h : '.' ∉ zs) :
    extTail (xs ++ '.' :: zs) = some ('.' :: zs) := by
  induction xs with
  | nil =>
    simp [extTail, (extTail_eq_none_iff zs).mpr h]
  | cons x xs ih =>
    simp [extTail, List.append_eq, ih]

theorem extname_append_dot {b t : List Char} (hb : b ≠ []) (ht : '.' ∉ t) :
    extname (b ++ '.' :: t) = '.' :: t := by
  cases b with
  | nil => exact absurd rfl hb
  | cons c b' =>
    simp only [List.cons_append, extname, extTail_append_dot b' ht, Option.getD_some]

/-! ### Helper lemmas about `Char.toLower` -/

theorem ofNat_upper_shift_ne_dot : ∀ m : Nat, m < 91 → 65 ≤ m → Char.ofNat (m + 32) ≠ '.' := by
  decide

theorem toLower_eq_dot {c : Char} (h : c.toLower = '.') : c = '.' := by
  simp only [Char.toLower] at h
  split at h
  · next hcond => exact absurd h (ofNat_upper_shift_ne_dot c.toNat (by omega) hcond.1)
  · exact h

theorem not_dot_mem_of_lower_webp_tail {t : List Char}
    (h : lowerList t = ['w', 'e', 'b', 'p']) : '.' ∉ t := by
  intro hmem
  have : Char.toLower '.' ∈ lowerList t := List.mem_map_of_mem Char.toLower hmem
  rw [h] at this
  exact absurd this (by decide)

/-! ### Characterization of the WebP filter -/

theorem isWebpFile_eq_true_iff {f : FileName} :
    isWebpFile f = true ↔ lowerList (extname f) = webpExt := by
  simp [isWebpFile]

/-- A matched file decomposes as a nonempty prefix followed by its extension,
which is a case variant of `.webp`, and the extension is exactly `extname f`. -/
theorem isWebpFile_decomp {f : FileName} (h : isWebpFile f = true) :
    ∃ b e, f = b ++ e ∧ b ≠ [] ∧ extname f = e ∧ lowerList e = webpExt := by
  have hlow : lowerList (extname f) = webpExt := isWebpFile_eq_true_iff.mp h
  cases hf : f with
  | nil =>
    rw [hf] at hlow
    exact absurd hlow (by decide)
  | cons c cs =>
    rw [hf] at hlow
    cases hct : extTail cs with
    | none =>
      rw [show extname (c :: cs) = [] by simp [extname, hct]] at hlow
      exact absurd hlow (by decide)
    | some e =>
      have hext : extname (c :: cs) = e := by simp [extname, hct]
      rw [hext] at hlow
      obtain ⟨pre, hpre⟩ := extTail_suffix hct
      refine ⟨c :: pre, e, ?_, by simp, hext, hlow⟩
      rw [← hpre, List.cons_append]

/-- Conversely, any file of that shape is matched by the filter. -/
theorem isWebpFile_of_decomp {b e : FileName} (hb : b ≠ [])
    (he : lowerList e = webpExt) : isWebpFile (b ++ e) = true := by
  obtain ⟨e0, t, rfl⟩ : ∃ e0 t, e = e0 :: t := by
    cases e with
    | nil => exact absurd he (by decide)
    | cons e0 t => exact ⟨e0, t, rfl⟩
  have he0 : e0.toLower = '.' := by
    have := congrArg (List.head? ·) he
    simpa [lowerList, webpExt] using this
  obtain rfl : e0 = '.' := toLower_eq_dot he0
  have ht : lowerList t = ['w', 'e', 'b', 'p'] := by
    have := congrArg (List.tail ·) he
    simpa [lowerList] using this
  have hdot : '.' ∉ t := not_dot_mem_of_lower_webp_tail ht
  rw [isWebpFile_eq_true_iff, extname_append_dot hb hdot]
  exact he

/-- The extension of a matched file has exactly five characters. -/
theorem isWebpFile_ext_length {f : FileName} (h : isWebpFile f = true) :
    (extname f).length = 5 := by
  have hlow : lowerList (extname f) = webpExt := isWebpFile_eq_true_iff.mp h
  have := congrArg List.length hlow
  simpa [lowerList] using this

/-- `.webp` alone is a hidden file without extension and is not matched. -/
theorem isWebpFile_webpExt : isWebpFile webpExt = false := by decide

/-! ### Output names are never matched by the filter -/

theorem extname_append_pngExt (y : FileName) (hy : y ≠ []) :
    extname (y ++ pngExt) = pngExt := by
  have : pngExt = '.' :: ['p', 'n', 'g'] := rfl
  rw [this]
  exact extname_append_dot hy (by decide)

theorem isWebpFile_outputName (f : FileName) : isWebpFile (outputName f) = false := by
  rw [outputName]
  cases hy : basenameStrip f webpExt with
  | nil => decide
  | cons c y' =>
    have : extname ((c :: y') ++ pngExt) = pngExt := extname_append_pngExt _ (by simp)
    simp only [isWebpFile, this]
    decide

/-! ### Characterization of the conversion loop -/

theorem foldl_processFile (ok : FileName → Bool) (ws : List FileName) (st : RunState) :
    ws.foldl (processFile ok) st =
      ⟨st.successCount + (ws.filter ok).length,
       st.errorCount + (ws.filter (fun f => !ok f)).length,
       st.outputs ++ (ws.filter ok).map outputName,
       st.failures ++ ws.filter (fun f => !ok f),
       st.processed ++ ws⟩ := by
  induction ws generalizing st with
  | nil => simp
  | cons f rest ih =>
    rw [List.foldl_cons, ih, processFile]
    cases hok : ok f <;>
      simp [hok, List.filter_cons, RunState.mk.injEq, List.append_assoc] <;>
      omega

theorem length_filter_add_length_filter_not {α : Type} (p : α → Bool) (l : List α) :
    (l.filter p).length + (l.filter (fun a => !p a)).length = l.length := by
  induction l with
  | nil => rfl
  | cons a t ih =>
    cases h : p a <;> simp [List.filter_cons, h] <;> omega

/-- The final state of a full conversion run, for any input list. -/
theorem convertWebpToPng_state (ok : FileName → Bool) (files : List FileName) :
    (convertWebpToPng ok files).state =
      ⟨((webpFiles files).filter ok).length,
       ((webpFiles files).filter (fun f => !ok f)).length,
       ((webpFiles files).filter ok).map outputName,
       (webpFiles files).filter (fun f => !ok f),
       webpFiles files⟩ := by
  rw [convertWebpToPng]
  by_cases h : (webpFiles files).isEmpty
  · rw [List.isEmpty_iff] at h
    simp [h, initState]
  · simp only [h, if_neg, Bool.false_eq_true, not_false_eq_true, if_false]
    rw [foldl_processFile]
    simp [initState]

/-- The final summary of a full conversion run. -/
theorem convertWebpToPng_summary (ok : FileName → Bool) (files : List FileName) :
    (convertWebpToPng ok files).summary =
      (if (webpFiles files).isEmpty then none
       else some ((convertWebpToPng ok files).state.successCount,
                  (convertWebpToPng ok files).state.errorCount)) := by
  rw [convertWebpToPng]
  by_cases h : (webpFiles files).isEmpty <;> simp [h]

/-! ### Characterization of the prompt loop -/

theorem foldl_promptStep (dryRun : Bool) (ok : PromptRecord → Bool)
    (rs : List PromptRecord) (st : PromptLoopState) :
    rs.foldl (promptStep dryRun ok) st =
      ⟨st.remaining ++ (if dryRun then rs else rs.filter (fun r => !ok r)),
       st.dispatched ++ rs.filter ok⟩ := by
  induction rs generalizing st with
  | nil => cases dryRun <;> simp
  | cons r rest ih =>
    rw [List.foldl_cons, ih, promptStep]
    cases hok : ok r <;> cases dryRun <;>
      simp [hok, List.filter_cons, PromptLoopState.mk.injEq, List.append_assoc]

/-! ### Further lemmas about output naming -/

theorem basenameStrip_of_suffix {f : FileName} (h : isWebpFile f = true)
    (hs : webpExt.isSuffixOf f = true) : basenameStrip f webpExt = baseName f := by
  have hne : f ≠ webpExt := by
    rintro rfl
    rw [isWebpFile_webpExt] at h
    exact Bool.noConfusion h
  have hcond : (webpExt.isSuffixOf f && !(f == webpExt)) = true := by
    rw [hs]
    simp [hne]
  rw [basenameStrip, if_pos hcond, baseName, isWebpFile_ext_length h]
  rfl

theorem basenameStrip_of_not_suffix {f : FileName}
    (hs : webpExt.isSuffixOf f = false) : basenameStrip f webpExt = f := by
  simp [basenameStrip, hs]

theorem length_ge_six {f : FileName} (h : isWebpFile f = true) : 6 ≤ f.length := by
  obtain ⟨b, e, rfl, hb, _, hlow⟩ := isWebpFile_decomp h
  have he : e.length = 5 := by
    have := congrArg List.length hlow
    simpa [lowerList] using this
  have hb1 : 1 ≤ b.length := by
    cases b with
    | nil => exact absurd rfl hb
    | cons _ _ => simp
  simp [he]
  omega

theorem baseName_ne_self {f : FileName} (h : isWebpFile f = true) : baseName f ≠ f := by
  intro heq
  have hlen := congrArg List.length heq
  rw [baseName, isWebpFile_ext_length h, List.length_take] at hlen
  have := length_ge_six h
  omega

/-! ### Claim theorems -/

/-- Claim C1: in the image conversion stage, a failed transcode is counted and
recorded but does not abort the batch — the loop processes every matched file
of the directory, the failures list and the error counter record exactly the
failed files, and (whenever any WebP file was matched at all) the run ends
with a summary reporting the success count and the failure count. -/
theorem conversion_failures_counted_batch_continues (ok : FileName → Bool)
    (files : List FileName) :
    (convertWebpToPng ok files).state.processed = webpFiles files ∧
    (convertWebpToPng ok files).state.failures =
      (webpFiles files).filter (fun f => !ok f) ∧
    (convertWebpToPng ok files).state.errorCount =
      ((webpFiles files).filter (fun f => !ok f)).length ∧
    (convertWebpToPng ok files).state.successCount =
      ((webpFiles files).filter ok).length ∧
    (convertWebpToPng ok files).summary =
      (if (webpFiles files).isEmpty then none
       else some (((webpFiles files).filter ok).length,
                  ((webpFiles files).filter (fun f => !ok f)).length)) := by
  have h := convertWebpToPng_state ok files
  refine ⟨by rw [h], by rw [h], by rw [h], by rw [h], ?_⟩
  rw [convertWebpToPng_summary, h]

/-- Claim C6: at the end of every conversion run each matched input contributed
to exactly one of the two counters — success count plus failure count equals
the number of matched inputs — and no failure is dropped: the error counter
equals the length of the recorded failure list. -/
theorem conversion_counters_partition_matched_files (ok : FileName → Bool)
    (files : List FileName) :
    (convertWebpToPng ok files).state.successCount +
      (convertWebpToPng ok files).state.errorCount = (webpFiles files).length ∧
    (convertWebpToPng ok files).state.errorCount =
      (convertWebpToPng ok files).state.failures.length := by
  rw [convertWebpToPng_state]
  exact ⟨length_filter_add_length_filter_not ok (webpFiles files), rfl⟩

/-- Claim C3: the conversion stage enumerates exactly the files of the
directory whose extension is `.webp` up to letter case — a file is matched iff
it splits into a nonempty base followed by an extension whose lowercasing is
`.webp`; in particular `.WEBP` and `.WebP` files are selected too, and the
enumeration keeps exactly the matching directory entries. -/
theorem webp_filter_selects_case_insensitively :
    (∀ f : FileName, isWebpFile f = true ↔
      ∃ b e, b ≠ [] ∧ lowerList e = webpExt ∧ f = b ++ e) ∧
    (∀ (files : List FileName) (f : FileName),
      f ∈ webpFiles files ↔ f ∈ files ∧ isWebpFile f = true) ∧
    isWebpFile "stamp.WEBP".toList = true ∧
    isWebpFile "stamp.WebP".toList = true ∧
    isWebpFile "stamp.webp".toList = true ∧
    isWebpFile "stamp.png".toList = false := by
  refine ⟨?_, ?_, by decide, by decide, by decide, by decide⟩
  · intro f
    constructor
    · intro h
      obtain ⟨b, e, heq, hb, _, hlow⟩ := isWebpFile_decomp h
      exact ⟨b, e, hb, hlow, heq⟩
    · rintro ⟨b, e, hb, he, rfl⟩
      exact isWebpFile_of_decomp hb he
  · intro files f
    simp [webpFiles, List.mem_filter]

/-- Claim C9: the Node.js converter selects `X.WEBP` (the filter lowercases
the extension) but names its output `X.WEBP.png`, because
`path.basename(file, '.webp')` strips only the literal lowercase suffix; an
input yields an output named base name + `.png` exactly when its extension is
the literal lowercase `.webp`, and otherwise the output is the full input name
plus `.png`. -/
theorem converter_output_naming_lowercase_only :
    isWebpFile "X.WEBP".toList = true ∧
    outputName "X.WEBP".toList = "X.WEBP.png".toList ∧
    ∀ f, isWebpFile f = true →
      ((webpExt.isSuffixOf f = true → outputName f = baseName f ++ pngExt) ∧
       (webpExt.isSuffixOf f = false → outputName f = f ++ pngExt) ∧
       (outputName f = baseName f ++ pngExt ↔ webpExt.isSuffixOf f = true)) := by
  refine ⟨by decide, by decide, ?_⟩
  intro f h
  refine ⟨?_, ?_, ?_⟩
  · intro hs
    rw [outputName, basenameStrip_of_suffix h hs]
  · intro hs
    rw [outputName, basenameStrip_of_not_suffix hs]
  · constructor
    · intro heq
      cases hs : webpExt.isSuffixOf f with
      | true => rfl
      | false =>
        rw [outputName, basenameStrip_of_not_suffix hs] at heq
        have hlen := congrArg List.length heq
        simp only [List.length_append] at hlen
        have hba := congrArg List.length
          (List.append_inj_left heq (by omega) : f = baseName f)
        have h6 := length_ge_six h
        rw [baseName, isWebpFile_ext_length h, List.length_take] at hba
        omega
    · intro hs
      rw [outputName, basenameStrip_of_suffix h hs]

/-- Witness for claim C9's theorem at concrete inputs: `a.webp` (lowercase
extension, base name + `.png`) and `X.WEBP` (uppercase, full name + `.png`). -/
theorem converter_output_naming_lowercase_only_witness :
    outputName "a.webp".toList = baseName "a.webp".toList ++ pngExt ∧
    outputName "X.WEBP".toList = "X.WEBP".toList ++ pngExt :=
  ⟨(converter_output_naming_lowercase_only.2.2 "a.webp".toList (by decide)).1 (by decide),
   (converter_output_naming_lowercase_only.2.2 "X.WEBP".toList (by decide)).2.1 (by decide)⟩

/-- Counterexample to claim C2 as stated: the input `X.WEBP` is matched and,
when it transcodes successfully, its output is named `X.WEBP.png`, not base
name + `.png`; moreover the PowerShell variant writes its outputs into the
`png_output` subdirectory, which is not the input's directory. -/
theorem conversion_output_sibling_basename_counterexample :
    isWebpFile "X.WEBP".toList = true ∧
    outputName "X.WEBP".toList ≠ baseName "X.WEBP".toList ++ pngExt ∧
    (psOutputPath "d".toList "image1.webp".toList).dir ≠
      (nodeInputPath "d".toList "image1.webp".toList).dir := by
  decide

/-- Claim C2 as amended: each matched file that transcodes successfully causes
exactly one output write; in the Node.js converter that output is a sibling of
the input, named base name + `.png` exactly when the input ends with the
literal lowercase `.webp` and full input name + `.png` otherwise; in the
PowerShell variant the output goes into the `png_output` subdirectory (not as
a sibling), named extension-stripped base name + `.png`. -/
theorem conversion_output_placement_and_naming :
    (∀ (ok : FileName → Bool) (files : List FileName),
      (convertWebpToPng ok files).state.outputs =
        ((webpFiles files).filter ok).map outputName) ∧
    (∀ (dir : List Char) (f : FileName), isWebpFile f = true →
      (nodeOutputPath dir f).dir = (nodeInputPath dir f).dir ∧
      (webpExt.isSuffixOf f = true →
        (nodeOutputPath dir f).name = baseName f ++ pngExt) ∧
      (webpExt.isSuffixOf f = false →
        (nodeOutputPath dir f).name = f ++ pngExt)) ∧
    (∀ (dir : List Char) (f : FileName),
      (psOutputPath dir f).dir = joinPath dir psOutputDirName ∧
      (psOutputPath dir f).name = dotnetStripExt f ++ pngExt ∧
      (psOutputPath dir f).dir ≠ dir) := by
  refine ⟨?_, ?_, ?_⟩
  · intro ok files
    rw [convertWebpToPng_state]
  · intro dir f h
    refine ⟨rfl, ?_, ?_⟩
    · intro hs
      show outputName f = baseName f ++ pngExt
      rw [outputName, basenameStrip_of_suffix h hs]
    · intro hs
      show outputName f = f ++ pngExt
      rw [outputName, basenameStrip_of_not_suffix hs]
  · intro dir f
    refine ⟨rfl, rfl, ?_⟩
    intro heq
    have hlen := congrArg List.length heq
    simp [psOutputPath, joinPath, psOutputDirName] at hlen

/-- Witness for the amended claim C2's theorem at concrete inputs. -/
theorem conversion_output_placement_and_naming_witness :
    (convertWebpToPng (fun _ => true) ["a.webp".toList]).state.outputs =
      ((webpFiles ["a.webp".toList]).filter (fun _ => true)).map outputName ∧
    (nodeOutputPath "d".toList "a.webp".toList).name =
      baseName "a.webp".toList ++ pngExt ∧
    (psOutputPath "d".toList "a.webp".toList).dir ≠ "d".toList :=
  ⟨conversion_output_placement_and_naming.1 (fun _ => true) ["a.webp".toList],
   (conversion_output_placement_and_naming.2.1 "d".toList "a.webp".toList
      (by decide)).2.1 (by decide),
   (conversion_output_placement_and_naming.2.2 "d".toList "a.webp".toList).2.2⟩

/-- Claim C5: the conversion stage is idempotent at the file-set level — the
directory contents after two consecutive runs equal the contents after one run
(outputs are overwritten deterministically, never duplicated), because an
output name is never itself matched as an input by the second run. -/
theorem conversion_idempotent_on_directory (ok : FileName → Bool)
    (fs : Finset FileName) :
    dirAfterRun ok (dirAfterRun ok fs) = dirAfterRun ok fs ∧
    ∀ f : FileName, isWebpFile (outputName f) = false := by
  refine ⟨?_, isWebpFile_outputName⟩
  have hout : ∀ y ∈ (fs.filter
      (fun f => isWebpFile f = true ∧ ok f = true)).image outputName,
      ¬(isWebpFile y = true ∧ ok y = true) := by
    intro y hy
    obtain ⟨x, _, rfl⟩ := Finset.mem_image.mp hy
    intro hcon
    rw [isWebpFile_outputName x] at hcon
    exact Bool.noConfusion hcon.1
  rw [dirAfterRun, dirAfterRun, Finset.filter_union,
      Finset.filter_eq_empty_iff.mpr hout, Finset.union_empty,
      Finset.union_assoc, Finset.union_self]

/-- Claim C7: the conversion stage never deletes a file — every file present
in the directory before the run, in particular every matched input whose
transcode failed, is still present after the run. -/
theorem conversion_deletes_no_file (ok : FileName → Bool) (fs : Finset FileName)
    (f : FileName) (h : f ∈ fs) : f ∈ dirAfterRun ok fs :=
  Finset.mem_union_left _ h

/-- Witness for claim C7's theorem: a matched input whose transcode failed is
still present after the run. -/
theorem conversion_deletes_no_file_witness :
    "a.webp".toList ∈ ({"a.webp".toList} : Finset FileName) ∧
    "a.webp".toList ∈ dirAfterRun (fun _ => false) {"a.webp".toList} :=
  ⟨Finset.mem_singleton_self _,
   conversion_deletes_no_file (fun _ => false) {"a.webp".toList} "a.webp".toList
     (Finset.mem_singleton_self _)⟩

/-- Claim C4: in dry-run (simulation) mode the prompt source file is unchanged
by a full run of the automation loop; in normal mode exactly the successfully
dispatched records are removed — what remains is exactly the records whose
dispatch did not succeed, in order, and the dispatched records are exactly the
successful ones. -/
theorem prompt_source_dry_run_unchanged_normal_removes_sent
    (ok : PromptRecord → Bool) (records : List PromptRecord) :
    (runPromptLoop true ok records).remaining = records ∧
    (runPromptLoop false ok records).remaining =
      records.filter (fun r => !ok r) ∧
    (runPromptLoop false ok records).dispatched = records.filter ok := by
  rw [runPromptLoop, runPromptLoop, foldl_promptStep, foldl_promptStep]
  simp

/-- Claim C8: the GUI launcher reports any unhandled exception raised while
constructing or running the GUI and exits with status 1; a fully successful
run exits with status 0 and reports nothing. -/
theorem launcher_exit_status {α : Type} (construct : Except (List Char) α)
    (run : α → Except (List Char) Unit) :
    ((mainEntry construct run).1 = 0 ↔ (mainEntry construct run).2 = none) ∧
    (∀ e, construct = Except.error e → mainEntry construct run = (1, some e)) ∧
    (∀ a e, construct = Except.ok a → run a = Except.error e →
      mainEntry construct run = (1, some e)) ∧
    (∀ a, construct = Except.ok a → run a = Except.ok () →
      mainEntry construct run = (0, none)) := by
  refine ⟨?_, ?_, ?_, ?_⟩
  · cases construct with
    | error e => simp [mainEntry]
    | ok a =>
      cases hr : run a with
      | error e => simp [mainEntry, hr]
      | ok u => cases u; simp [mainEntry, hr]
  · rintro e rfl
    rfl
  · rintro a e rfl hr
    simp [mainEntry, hr]
  · rintro a rfl hr
    simp [mainEntry, hr]

/-- Witness for claim C8's theorem: a constructor exception exits 1 with the
message reported; a fully successful run exits 0 reporting nothing. -/
theorem launcher_exit_status_witness :
    mainEntry (Except.error "boom".toList) (fun _ : Unit => Except.ok ()) =
      (1, some "boom".toList) ∧
    mainEntry (Except.ok ()) (fun _ : Unit => Except.ok ()) = (0, none) :=
  ⟨(launcher_exit_status (Except.error "boom".toList)
      (fun _ : Unit => Except.ok ())).2.1 "boom".toList rfl,
   (launcher_exit_status (Except.ok ())
      (fun _ : Unit => Except.ok ())).2.2.2 () rfl rfl⟩

/-- Claim C10: the Alt+1 handler performs 19 iterations with tab counts 2..20
in increasing order, the Alt+2 handler performs 20 iterations with tab counts
21..40, every iteration is Down, Space, the Tab sequence, then Enter, and
across the two handlers each tab count from 2 to 40 occurs exactly once. -/
theorem canva_handlers_tab_counts :
    alt1Handler.length = 19 ∧
    alt2Handler.length = 20 ∧
    alt1Handler.map tabsSent = List.range' 2 19 ∧
    alt2Handler.map tabsSent = List.range' 21 20 ∧
    (alt1Handler ++ alt2Handler).map tabsSent = List.range' 2 39 ∧
    ((alt1Handler ++ alt2Handler).all
      (fun it => it == iterationKeys (tabsSent it))) = true := by
  decide

end LineStamp
